import Mathlib

/-!
# WenPM — verification of the Package Resolution & Installation Pipeline

Shallow embedding of the core of the `superyngo/WenPM` repository
(`src/package_resolver.rs`, `src/commands/add.rs`) together with proofs
settling the frozen claims about it.

Rust strings are UTF-8 byte sequences and `glob_match` in
`package_resolver.rs` works over byte indices (`pos`, `part.len()`,
`str::find` offsets) and slices (`text[pos..]`, which panics when the index
is not a character boundary).  We therefore embed strings for the matcher as
lists of bytes (`List Nat`), model the panicking slice as an `Option`, and
quantify over Lean `String`s through an explicit UTF-8 encoder.
-/

namespace Wen

/-! ## UTF-8 byte model -/

/-- A UTF-8 continuation byte (`0x80 ≤ b < 0xC0`). -/
def isCont (b : Nat) : Bool := 128 ≤ b && b < 192

/-- Number of bytes of the encoded character as determined by its lead byte. -/
def leadLen (b : Nat) : Nat :=
  if b < 128 then 1 else if b < 224 then 2 else if b < 240 then 3 else 4

/-- A well-formed encoded character: nonempty, a non-continuation lead byte
whose announced length is the block length, all other bytes continuations. -/
def validChar (c : List Nat) : Bool :=
  match c with
  | [] => false
  | b :: rest => !isCont b && leadLen b == rest.length + 1 && rest.all isCont

/-- A byte list that is a concatenation of well-formed encoded characters:
exactly the byte strings a Rust `&str` can hold (up to the unused upper
bound on code points, which only enlarges the set we quantify over). -/
inductive Utf8 : List Nat → Prop
  | nil : Utf8 []
  | cons (c s : List Nat) : validChar c = true → Utf8 s → Utf8 (c ++ s)

/-- Rust `str::is_char_boundary`, byte-level: index 0 and the total length
are boundaries, and otherwise the byte at the index must not be a
continuation byte. -/
def is_char_boundary (s : List Nat) (i : Nat) : Bool :=
  if i = 0 then true
  else
    match s.get? i with
    | none => i == s.length
    | some b => !isCont b

/-- The Rust slice `text[pos..]`: `some` suffix when `pos` is a character
boundary, `none` when the slice would panic. -/
def rust_slice (s : List Nat) (i : Nat) : Option (List Nat) :=
  if is_char_boundary s i then some (s.drop i) else none

/-! ## `glob_match` (src/package_resolver.rs lines 161-199) -/

/-- `pattern.split('*')` at the byte level (42 = `'*'`).  Like Rust's
`str::split`, it always yields at least one (possibly empty) part. -/
def splitStar : List Nat → List (List Nat)
  | [] => [[]]
  | b :: rest =>
    if b == 42 then [] :: splitStar rest
    else
      match splitStar rest with
      | [] => [[b]]
      | p :: ps => (b :: p) :: ps

/-- Rust `str::find(&str)`: byte offset of the leftmost occurrence of
`needle` in `hay`, `none` when there is none. -/
def listFind (hay needle : List Nat) : Option Nat :=
  if needle.isPrefixOf hay then some 0
  else
    match hay with
    | [] => none
    | _ :: t => (listFind t needle).map (· + 1)

/-- The `for` loop of `glob_match` over the parts after the first
(src/package_resolver.rs lines 172-196).  `pos` is the byte cursor into
`text`; a `[last]` argument is the final part (`i == parts.len() - 1`),
any earlier part is an interior one.  Empty parts are skipped before any
slicing, exactly as `if part.is_empty() { continue; }` does.  A `none`
result models a Rust panic in `text[pos..]`. -/
def glob_loop (text : List Nat) : List (List Nat) → Nat → Option Bool
  | [], _ => some true
  | [last], pos =>
    if last.isEmpty then some true
    else
      match rust_slice text pos with
      | none => none
      | some rem => some (last.isSuffixOf rem)
  | part :: r :: rest, pos =>
    if part.isEmpty then glob_loop text (r :: rest) pos
    else
      match rust_slice text pos with
      | none => none
      | some rem =>
        match listFind rem part with
        | some fp => glob_loop text (r :: rest) (pos + fp + part.length)
        | none => some false

/-- `glob_match` (src/package_resolver.rs lines 161-199), byte-level.
The first part is the `i == 0` iteration of the source loop: if nonempty it
must be a prefix of `text` and sets `pos = part.len()`; the remaining parts
are handled by `glob_loop`.  `none` models a panic. -/
def glob_match (text pattern : List Nat) : Option Bool :=
  let parts := splitStar pattern
  if parts.length == 1 then some (text == pattern)
  else
    match parts with
    | [] => some true
    | first :: rest =>
      if first.isEmpty then glob_loop text rest 0
      else if first.isPrefixOf text then glob_loop text rest first.length
      else some false

/-! ## Reference matcher, following the spec's words (§4.2)

"Split `pattern` on `*`.  No `*` present: exact equality.  Otherwise: the
first non-empty segment must be a prefix of `text`; the last non-empty
segment must be a suffix of the remainder; interior non-empty segments must
be found in order using a leftmost-match-from-current-cursor scan (no
backtracking); empty segments impose no constraint; a pattern consisting
only of `*` matches everything."

Read positionally (the first segment, when non-empty, is the prefix
constraint, and so on); the spec's own test property
`match("ripgrep","*grep") == true` forces this reading, since the literal
"first non-empty segment" of `*grep` is `grep`, which is not a prefix. -/

/-- Modelled from the spec: the leftmost, non-backtracking scan of the
interior segments, carried out on the remainder of the text; returns the
remainder after the last interior match, or `none` when a segment is not
found. -/
def seg_scan : List (List Nat) → List Nat → Option (List Nat)
  | [], rem => some rem
  | m :: ms, rem =>
    if m.isEmpty then seg_scan ms rem
    else
      match listFind rem m with
      | some p => seg_scan ms (rem.drop (p + m.length))
      | none => none

/-- Modelled from the spec: the reference definition of the matcher from
§4.2, stated on remainders of `text` rather than on a byte cursor. -/
def spec_glob (text pattern : List Nat) : Bool :=
  if !(pattern.contains 42) then text == pattern
  else
    match splitStar pattern with
    | [] => true
    | [_] => text == pattern
    | first :: r :: rest =>
      let last := (r :: rest).getLastD []
      let mids := (r :: rest).dropLast
      let step1 : Option (List Nat) :=
        if first.isEmpty then some text
        else if first.isPrefixOf text then some (text.drop first.length)
        else none
      match step1 with
      | none => false
      | some rem1 =>
        match seg_scan mids rem1 with
        | none => false
        | some rem2 => last.isEmpty || last.isSuffixOf rem2

/-- Intermediate form of the reference matcher used to relate the two
definitions: the interior scan and the final suffix check of `spec_glob`,
fused into one recursion over the segments after the first. -/
def spec_tail : List (List Nat) → List Nat → Bool
  | [], _ => true
  | [last], rem => last.isEmpty || last.isSuffixOf rem
  | m :: r :: rest, rem =>
    if m.isEmpty then spec_tail (r :: rest) rem
    else
      match listFind rem m with
      | some p => spec_tail (r :: rest) (rem.drop (p + m.length))
      | none => false

/-- The cursor invariant of `glob_loop`: the cursor never exceeds the text
and always sits at a character boundary (what remains is well-formed). -/
def Inv (text : List Nat) (pos : Nat) : Prop :=
  pos ≤ text.length ∧ Utf8 (text.drop pos)

/-! ## Encoding Lean strings to their UTF-8 bytes -/

/-- UTF-8 encoding of one character. -/
def utf8Encode (c : Char) : List Nat :=
  let n := c.toNat
  if n < 128 then [n]
  else if n < 2048 then [192 + n / 64, 128 + n % 64]
  else if n < 65536 then [224 + n / 4096, 128 + (n / 64) % 64, 128 + n % 64]
  else [240 + n / 262144, 128 + (n / 4096) % 64, 128 + (n / 64) % 64,
        128 + n % 64]

/-- The UTF-8 bytes of a Lean string. -/
def strBytes (s : String) : List Nat := (s.data.map utf8Encode).flatten

/-! ## Data model (src/core/manifest.rs interface, §3 and §6 of the spec)

The manifest module itself is not among the given sources; its record
shapes and the store operations are modelled from the spec: `Package` per
§3, the Installed State Store as a name-keyed map (association list) with
`get_package` = lookup and `upsert_package` = insert-or-replace per §6. -/

/-- Provenance of a package (`PackageSource` in core/manifest.rs, §3). -/
inductive PackageSource
  | Bucket (name : String)
  | DirectRepo (url : String)
deriving DecidableEq

/-- A downloadable binary: URL and byte size (§3). -/
structure BinaryAsset where
  url : String
  size : Nat
deriving DecidableEq

/-- Package metadata (§3); the platform map is an association list with
unique keys, `platforms.lookup` standing for `HashMap::get`. -/
structure Package where
  name : String
  repo : String
  description : Option String
  platforms : List (String × BinaryAsset)
deriving DecidableEq

/-- Result of resolution (src/package_resolver.rs lines 50-63). -/
structure ResolvedPackage where
  package : Package
  source : PackageSource
deriving DecidableEq

/-- A cache entry: package plus provenance (§3, external store). -/
structure CachedPackage where
  package : Package
  source : PackageSource
deriving DecidableEq

/-- The manifest cache, keyed by source URL (§3, §6); list order stands
for the undefined iteration order of the underlying hash map. -/
structure Cache where
  packages : List (String × CachedPackage)
deriving DecidableEq

/-- Modelled from the spec: the persisted installed-package record (§3). -/
structure InstalledPackage where
  version : String
  platform : String
  installedAt : Nat
  installPath : String
  files : List String
  source : PackageSource
  description : Option String
deriving DecidableEq

/-- Modelled from the spec: the Installed State Store manifest, keyed by
package name (§3, §6). -/
structure InstalledManifest where
  packages : List (String × InstalledPackage)
deriving DecidableEq

/-- Modelled from the spec: `get_package(name) -> optional InstalledPackage`
(§6), a lookup in the name-keyed store. -/
def InstalledManifest.get_package (m : InstalledManifest) (name : String) :
    Option InstalledPackage :=
  m.packages.lookup name

/-- Modelled from the spec: `is_installed(name) -> bool` (§6). -/
def InstalledManifest.is_installed (m : InstalledManifest) (name : String) :
    Bool :=
  (m.get_package name).isSome

/-- Modelled from the spec: `upsert_package(name, pkg)` (§6), an
insert-or-replace in the name-keyed store. -/
def InstalledManifest.upsert_package (m : InstalledManifest) (name : String)
    (pkg : InstalledPackage) : InstalledManifest :=
  ⟨(name, pkg) :: m.packages.filter (fun e => !(e.1 == name))⟩

/-! ## Input classifier (src/package_resolver.rs lines 13-47) -/

/-- The Unicode White_Space code points, the set Rust's
`char::is_whitespace` tests. -/
def rustIsWhitespace (c : Char) : Bool :=
  ([9, 10, 11, 12, 13, 32, 133, 160, 5760, 8192, 8193, 8194, 8195, 8196,
    8197, 8198, 8199, 8200, 8201, 8202, 8232, 8233, 8239, 8287,
    12288] : List Nat).contains c.toNat

/-- Remove leading and trailing whitespace from a character list. -/
def trimChars (l : List Char) : List Char :=
  ((l.dropWhile rustIsWhitespace).reverse.dropWhile rustIsWhitespace).reverse

/-- Rust `str::trim`. -/
def rustTrim (s : String) : String := ⟨trimChars s.data⟩

/-- Rust `str::starts_with(&str)`. -/
def rustStartsWith (s pre : String) : Bool := pre.data.isPrefixOf s.data

/-- The two kinds of user input (src/package_resolver.rs lines 14-20). -/
inductive PackageInput
  | CacheName (pattern : String)
  | DirectUrl (url : String)
deriving DecidableEq

/-- `normalize_github_url` (src/package_resolver.rs lines 38-47): trim,
then prepend `https://` to a bare `github.com/` form. -/
def normalize_github_url (url : String) : String :=
  let url2 := rustTrim url
  if rustStartsWith url2 "github.com/" then "https://" ++ url2 else url2

/-- `PackageInput::parse` (src/package_resolver.rs lines 24-34). -/
def PackageInput.parse (input : String) : PackageInput :=
  if rustStartsWith input "http://" || rustStartsWith input "https://"
      || rustStartsWith input "github.com/" then
    .DirectUrl (normalize_github_url input)
  else
    .CacheName input

/-! ## Package resolver (src/package_resolver.rs lines 65-158) -/

/-- Resolver errors; `anyhow` context chains are flattened into the
constructor arguments.  `notFound` is the
`No packages found matching: name` error of line 137. -/
inductive RErr
  | cacheError (msg : String)
  | installedError (msg : String)
  | fetchError (url : String) (msg : String)
  | notFound (name : String)
deriving DecidableEq

/-- The external collaborators the resolver calls (§6): the cache store,
the installed-state store, and the source provider, each allowed to
fail. -/
structure ResolverEnv where
  cache : Except String Cache
  installed : Except String InstalledManifest
  fetchPackage : String → Except String Package

/-- `glob_match` applied to Rust strings.  By the totality theorem proved
below the embedded byte-level matcher always returns `some` on encoded
strings, so the `getD` default is never exercised. -/
def glob_match_str (text pattern : String) : Bool :=
  (glob_match (strBytes text) (strBytes pattern)).getD false

/-- `name.contains('*')`. -/
def strContainsStar (s : String) : Bool := s.data.contains (Char.ofNat 42)

/-- `resolve_from_url` (src/package_resolver.rs lines 141-152): one fetch,
tagged `DirectRepo` with the url; fetch failures gain the
`Failed to fetch package from` context. -/
def resolve_from_url (env : ResolverEnv) (url : String) :
    Except RErr ResolvedPackage :=
  match env.fetchPackage url with
  | .error e => .error (.fetchError url e)
  | .ok package => .ok ⟨package, .DirectRepo url⟩

/-- The cache filter of `resolve_from_cache` (lines 100-114): glob
matching when the name carries `*`, exact equality otherwise, over the
cache's values. -/
def cache_matches (cache : Cache) (name : String) : List CachedPackage :=
  if strContainsStar name then
    (cache.packages.map Prod.snd).filter
      (fun cached => glob_match_str cached.package.name name)
  else
    (cache.packages.map Prod.snd).filter
      (fun cached => cached.package.name == name)

/-- `resolve_from_cache` (src/package_resolver.rs lines 95-138): cache
matches win; otherwise, for a `*`-free name only, an installed package of
that exact name with `DirectRepo` provenance is re-fetched from its stored
URL; everything else falls through to `notFound`. -/
def resolve_from_cache (env : ResolverEnv) (name : String) :
    Except RErr (List ResolvedPackage) :=
  match env.cache with
  | .error e => .error (.cacheError e)
  | .ok cache =>
    let found := cache_matches cache name
    if !found.isEmpty then
      .ok (found.map (fun cached => ⟨cached.package, cached.source⟩))
    else
      if !(strContainsStar name) then
        match env.installed with
        | .error e => .error (.installedError e)
        | .ok installed =>
          match installed.get_package name with
          | some inst_pkg =>
            match inst_pkg.source with
            | .DirectRepo url => (resolve_from_url env url).map (fun p => [p])
            | _ => .error (.notFound name)
          | none => .error (.notFound name)
      else
        .error (.notFound name)

/-- `PackageResolver::resolve` (src/package_resolver.rs lines 83-91). -/
def resolve (env : ResolverEnv) (input : PackageInput) :
    Except RErr (List ResolvedPackage) :=
  match input with
  | .CacheName name => resolve_from_cache env name
  | .DirectUrl url => (resolve_from_url env url).map (fun p => [p])

/-! ## Installer pipeline (src/commands/add.rs lines 211-296) -/

/-- The IO primitives `install_package` drives (downloader, filesystem,
archive extractor, `find_executable`, launcher creation), with each
outcome supplied by the environment; `download` receives the url and the
destination filename derived from it. -/
structure InstallEnv where
  createDirAll : Except String Unit
  download : String → String → Except String Unit
  appDirExists : Bool
  removeDirAll : Except String Unit
  extract : String → Except String (List String)
  findExecutable : List String → String → Option String
  exeExists : String → Bool
  createLauncher : String → Except String Unit
  removeDownload : String → Except String Unit
  appDirPath : String
  now : Nat

/-- `str::split('/')` at the character level; like Rust's `split`, always
at least one (possibly empty) part. -/
def splitSlash : List Char → List (List Char)
  | [] => [[]]
  | c :: rest =>
    if c == '/' then [] :: splitSlash rest
    else
      match splitSlash rest with
      | [] => [[c]]
      | p :: ps => (c :: p) :: ps

/-- The final path segment of a URL:
`binary.url.split('/').next_back()` (add.rs lines 232-236). -/
def lastSegment (url : String) : Option String :=
  ((splitSlash url.data).map (fun l => String.mk l)).getLast?

/-- Platform selection (add.rs lines 220-223): the first identifier in
priority order that is a key of the platform map, paired with its
asset. -/
def selectPlatform (platform_ids : List String)
    (platforms : List (String × BinaryAsset)) : Option (String × BinaryAsset) :=
  platform_ids.findSome? (fun pid => (platforms.lookup pid).map (fun b => (pid, b)))

/-- `install_package` (src/commands/add.rs lines 211-296), with the error
messages of the source.  Every `?` of the source is a `match` on the
corresponding environment outcome; note that the final
`fs::remove_file(&download_path)?` (line 282) propagates a cleanup
failure just like every other stage. -/
def install_package (env : InstallEnv) (pkg : Package)
    (platform_ids : List String) (version : String) (source : PackageSource) :
    Except String InstalledPackage :=
  match selectPlatform platform_ids pkg.platforms with
  | none => .error "No binary found for current platform"
  | some (platform_id, binary) =>
    match env.createDirAll with
    | .error e => .error e
    | .ok _ =>
      match lastSegment binary.url with
      | none => .error "Invalid download URL"
      | some filename =>
        match env.download binary.url filename with
        | .error e => .error e
        | .ok _ =>
          match (if env.appDirExists then env.removeDirAll else .ok ()) with
          | .error e => .error e
          | .ok _ =>
            match env.extract filename with
            | .error e => .error e
            | .ok extracted_files =>
              match env.findExecutable extracted_files pkg.name with
              | none => .error "Failed to find executable in archive"
              | some exe_relative =>
                if !env.exeExists exe_relative then
                  .error "Executable not found"
                else
                  match env.createLauncher exe_relative with
                  | .error e => .error e
                  | .ok _ =>
                    match env.removeDownload filename with
                    | .error e => .error e
                    | .ok _ =>
                      .ok { version := version, platform := platform_id,
                            installedAt := env.now,
                            installPath := env.appDirPath,
                            files := extracted_files, source := source,
                            description := pkg.description }

/-! ## The add command's batch loop (src/commands/add.rs lines 85-196) -/

/-- The three per-package classification reports printed by `add::run`
(lines 103-131). -/
inductive Report
  | sameVersion (version : String)
  | upgrade (oldVersion newVersion : String)
  | newInstall (version : String)
deriving DecidableEq

/-- Environment of the batch loop: the version provider
(`github.fetch_latest_version`), the per-package installer environment,
and the outcome of `config.save_installed`. -/
structure RunEnv where
  fetchVersion : String → Except String String
  instEnv : ResolvedPackage → InstallEnv
  saveResult : InstalledManifest → Except String Unit

/-- The classification loop of `add::run` (lines 91-133): fetch the
latest version (a fetch failure displays as "unknown"), then report and
bucket each package as same-version (skipped), upgrade, or new install.
`is_installed` + `get_package(..).unwrap()` of the source is the single
`get_package` lookup of the store model. -/
def classifyPackages (env : RunEnv) (installed : InstalledManifest) :
    List ResolvedPackage →
      List ResolvedPackage × List ResolvedPackage × List (String × Report)
  | [] => ([], [], [])
  | resolved :: rest =>
    let version :=
      match env.fetchVersion resolved.package.repo with
      | .ok v => v
      | .error _ => "unknown"
    let cl := classifyPackages env installed rest
    match installed.get_package resolved.package.name with
    | some inst_pkg =>
      if inst_pkg.version == version then
        (cl.1, cl.2.1, (resolved.package.name, .sameVersion version) :: cl.2.2)
      else
        (cl.1, resolved :: cl.2.1,
          (resolved.package.name, .upgrade inst_pkg.version version) :: cl.2.2)
    | none =>
      (resolved :: cl.1, cl.2.1,
        (resolved.package.name, .newInstall version) :: cl.2.2)

/-- State of the install loop: the in-memory manifest, the list of
manifests persisted so far (one entry per successful `save_installed`),
and the run-level counters. -/
structure RunState where
  installed : InstalledManifest
  saves : List InstalledManifest
  successCount : Nat
  failCount : Nat
deriving DecidableEq

/-- The install loop of `add::run` (lines 167-196): per package, re-fetch
the latest version (its `?` aborts the whole run), run `install_package`;
on success upsert into the in-memory manifest and persist it immediately
(`save_installed?`, recorded in `saves`); on failure print, bump the
failure counter, and continue with the next package. -/
def installLoop (env : RunEnv) (platform_ids : List String) :
    List ResolvedPackage → RunState → Except String RunState
  | [], st => .ok st
  | resolved :: rest, st =>
    match env.fetchVersion resolved.package.repo with
    | .error e => .error e
    | .ok version =>
      match install_package (env.instEnv resolved) resolved.package
          platform_ids version resolved.source with
      | .ok inst_pkg =>
        let m := st.installed.upsert_package resolved.package.name inst_pkg
        match env.saveResult m with
        | .error e => .error e
        | .ok _ =>
          installLoop env platform_ids rest
            { installed := m, saves := st.saves ++ [m],
              successCount := st.successCount + 1, failCount := st.failCount }
      | .error _ =>
        installLoop env platform_ids rest
          { st with failCount := st.failCount + 1 }

/-- Lines 136-196 of `add::run` with `yes = true`: classify against the
installed store, then install the new installs followed by the
upgrades. -/
def runBatch (env : RunEnv) (platform_ids : List String)
    (installed0 : InstalledManifest) (packages : List ResolvedPackage) :
    Except String RunState :=
  let cl := classifyPackages env installed0 packages
  installLoop env platform_ids (cl.1 ++ cl.2.1)
    { installed := installed0, saves := [], successCount := 0, failCount := 0 }

/-! ## Concrete fixtures used by the witnesses -/

/-- A small concrete package. -/
def pkgFoo : Package := ⟨"foo", "https://github.com/u/foo", none, []⟩

/-- A one-entry cache whose entry is Bucket-tagged. -/
def cacheFoo : Cache :=
  ⟨[("https://github.com/u/foo", ⟨pkgFoo, .Bucket "main"⟩)]⟩

/-- An installed record with `DirectRepo` provenance. -/
def instFooDirect : InstalledPackage :=
  ⟨"1.0", "linux-x64", 0, "p", [], .DirectRepo "https://github.com/u/foo", none⟩

/-- Resolver environment with the Bucket cache and an empty installed
store. -/
def envBucket : ResolverEnv := ⟨.ok cacheFoo, .ok ⟨[]⟩, fun _ => .ok pkgFoo⟩

/-- Resolver environment with an empty cache and one installed
`DirectRepo` package. -/
def envFallback : ResolverEnv :=
  ⟨.ok ⟨[]⟩, .ok ⟨[("foo", instFooDirect)]⟩, fun _ => .ok pkgFoo⟩

/-- Installer environment where every stage succeeds except deleting the
staged archive. -/
def cleanupFailEnv : InstallEnv :=
  { createDirAll := .ok ()
  , download := fun _ _ => .ok ()
  , appDirExists := false
  , removeDirAll := .ok ()
  , extract := fun _ => .ok ["foo"]
  , findExecutable := fun _ _ => some "foo"
  , exeExists := fun _ => true
  , createLauncher := fun _ => .ok ()
  , removeDownload := fun _ => .error "Permission denied (os error 13)"
  , appDirPath := "/home/u/.wenget/apps/foo"
  , now := 0 }

/-- A package with one linux-x64 binary. -/
def pkgFooLinux : Package :=
  ⟨"foo", "https://github.com/u/foo", none,
    [("linux-x64", ⟨"https://github.com/u/foo/releases/v1/foo.tar.gz", 10⟩)]⟩

/-- A second package whose download fails in `runEnvFix`. -/
def pkgBadLinux : Package :=
  ⟨"bad", "https://github.com/u/bad", none,
    [("linux-x64", ⟨"https://github.com/u/bad/releases/v1/bad.tar.gz", 5⟩)]⟩

/-- Batch environment: versions always fetch as `1.0.0`, saving always
succeeds, package `bad` fails its download, every other package installs
cleanly. -/
def runEnvFix : RunEnv :=
  { fetchVersion := fun _ => .ok "1.0.0"
  , instEnv := fun r =>
      if r.package.name == "bad" then
        { cleanupFailEnv with download := fun _ _ => .error "network" }
      else
        { cleanupFailEnv with removeDownload := fun _ => .ok () }
  , saveResult := fun _ => .ok () }

/-! ## Well-formedness lemmas for the byte model -/

theorem validChar_ne_nil {c : List Nat} (h : validChar c = true) : c ≠ [] := by
  cases c with
  | nil => simp [validChar] at h
  | cons b rest => simp

theorem validChar_head_not_cont {b : Nat} {rest : List Nat}
    (h : validChar (b :: rest) = true) : isCont b = false := by
  simp [validChar, Bool.and_eq_true] at h
  simpa using h.1.1

theorem validChar_leadLen {b : Nat} {rest : List Nat}
    (h : validChar (b :: rest) = true) : leadLen b = rest.length + 1 := by
  simp [validChar, Bool.and_eq_true] at h
  exact h.1.2

theorem validChar_tail_cont {b x : Nat} {rest : List Nat}
    (h : validChar (b :: rest) = true) (hx : x ∈ rest) : isCont x = true := by
  simp [validChar, Bool.and_eq_true, List.all_eq_true] at h
  exact h.2 x hx

theorem utf8_cons_decomp {s : List Nat} (h : Utf8 s) (hne : s ≠ []) :
    ∃ c t, validChar c = true ∧ Utf8 t ∧ s = c ++ t := by
  cases h with
  | nil => exact absurd rfl hne
  | cons c t hc ht => exact ⟨c, t, hc, ht, rfl⟩

theorem utf8_head_not_cont {b : Nat} {t : List Nat} (h : Utf8 (b :: t)) :
    isCont b = false := by
  obtain ⟨c, u, hc, _, heq⟩ := utf8_cons_decomp h (by simp)
  cases c with
  | nil => exact absurd hc (by simp [validChar])
  | cons cb crest =>
    have : cb = b := by simpa using congrArg (List.head? ·) heq.symm
    subst this
    exact validChar_head_not_cont hc

/-- Dropping a UTF-8 prefix of a UTF-8 string leaves a UTF-8 string: the
lead byte determines the length of each block, so equal byte prefixes of
two well-formed strings cover whole blocks of both. -/
theorem utf8_drop_prefix {n : List Nat} (hn : Utf8 n) :
    ∀ {s : List Nat}, Utf8 s → n <+: s → Utf8 (s.drop n.length) := by
  induction hn with
  | nil => intro s hs _; simpa using hs
  | cons c n2 hc hn2 ih =>
    intro s hs hpre
    have hcne : c ≠ [] := validChar_ne_nil hc
    have hsne : s ≠ [] := by
      rintro rfl
      rw [List.prefix_nil, List.append_eq_nil] at hpre
      exact hcne hpre.1
    obtain ⟨d, s2, hd, hs2, rfl⟩ := utf8_cons_decomp hs hsne
    obtain ⟨cb, crest, rfl⟩ := List.exists_cons_of_ne_nil hcne
    obtain ⟨db, drest, rfl⟩ := List.exists_cons_of_ne_nil (validChar_ne_nil hd)
    have hhead : cb = db := by
      have h1 : cb :: (crest ++ n2) <+: db :: (drest ++ s2) := by simpa using hpre
      exact ((List.cons_prefix_cons).mp h1).1
    subst hhead
    have hlen : crest.length = drest.length := by
      have h1 := validChar_leadLen hc
      have h2 := validChar_leadLen hd
      omega
    have hcd : (cb :: crest) = (cb :: drest) := by
      apply List.IsPrefix.eq_of_length
      · refine List.prefix_of_prefix_length_le ?_ (List.prefix_append _ s2) ?_
        · exact List.IsPrefix.trans (List.prefix_append _ n2) hpre
        · simp [hlen]
      · simp [hlen]
    have hdrest : crest = drest := by
      injection hcd
    subst hdrest
    have hn2s2 : n2 <+: s2 :=
      (List.prefix_append_right_inj (cb :: crest)).mp hpre
    have hdrop : ((cb :: crest) ++ s2).drop ((cb :: crest) ++ n2).length
        = s2.drop n2.length := by
      rw [List.length_append, List.drop_append]
    rw [hdrop]
    exact ih hs2 hn2s2

theorem listFind_sound {hay needle : List Nat} {p : Nat}
    (h : listFind hay needle = some p) :
    needle <+: hay.drop p ∧ p ≤ hay.length := by
  induction hay generalizing p with
  | nil =>
    rw [listFind] at h
    by_cases hp : needle.isPrefixOf ([] : List Nat)
    · simp [hp] at h
      subst h
      simpa using List.isPrefixOf_iff_prefix.mp hp
    · simp [hp] at h
  | cons b t ih =>
    rw [listFind] at h
    by_cases hp : needle.isPrefixOf (b :: t)
    · simp [hp] at h
      subst h
      simpa using List.isPrefixOf_iff_prefix.mp hp
    · simp [hp] at h
      obtain ⟨q, hq, rfl⟩ := h
      obtain ⟨h1, h2⟩ := ih hq
      refine ⟨by simpa using h1, by simpa using h2⟩

/-- A well-formed needle (lead byte not a continuation byte) can only occur
at a character boundary of a well-formed haystack: dropping the bytes
before the occurrence leaves a well-formed string. -/
theorem utf8_drop_of_match {nb : Nat} {ntail : List Nat}
    (hnb : isCont nb = false) :
    ∀ {s : List Nat}, Utf8 s → ∀ {p : Nat}, (nb :: ntail) <+: s.drop p →
      Utf8 (s.drop p) := by
  intro s hs
  induction hs with
  | nil =>
    intro p hpre
    rw [List.drop_nil] at hpre ⊢
    rw [List.prefix_nil] at hpre
    simp at hpre
  | cons c s2 hc hs2 ih =>
    intro p hpre
    rcases Nat.eq_zero_or_pos p with rfl | hppos
    · simpa using Utf8.cons c s2 hc hs2
    obtain ⟨cb, crest, rfl⟩ := List.exists_cons_of_ne_nil (validChar_ne_nil hc)
    rcases Nat.lt_or_ge p (cb :: crest).length with hlt | hge
    · -- inside the first block: the byte at `p` is a continuation byte,
      -- but it equals the needle's non-continuation lead byte
      exfalso
      obtain ⟨q, hq⟩ := Nat.exists_eq_add_of_le hppos
      have hql : q < crest.length := by
        have hlc : (cb :: crest).length = crest.length + 1 := by simp
        omega
      have hq1 : p = q + 1 := by omega
      have hdrop1 : ((cb :: crest) ++ s2).drop p = crest.drop q ++ s2 := by
        rw [hq1, List.cons_append, List.drop_succ_cons,
          List.drop_append_eq_append_drop, Nat.sub_eq_zero_of_le (le_of_lt hql),
          List.drop_zero]
      have hcrne : crest.drop q ≠ [] := by
        intro hh
        have := List.drop_eq_nil_iff.mp hh
        omega
      obtain ⟨x, xs, hx⟩ := List.exists_cons_of_ne_nil hcrne
      have hxmem : x ∈ crest := by
        have : x ∈ crest.drop q := by rw [hx]; simp
        exact List.drop_subset q crest this
      have hxcont : isCont x = true := validChar_tail_cont hc hxmem
      have hxnb : nb = x := by
        rw [hdrop1, hx] at hpre
        exact ((List.cons_prefix_cons).mp hpre).1
      rw [hxnb, hxcont] at hnb
      simp at hnb
    · -- past the first block: recurse into the rest of the string
      obtain ⟨q, rfl⟩ := Nat.exists_eq_add_of_le hge
      have hdrop2 : ((cb :: crest) ++ s2).drop ((cb :: crest).length + q)
          = s2.drop q := by
        rw [List.drop_append]
      rw [hdrop2] at hpre ⊢
      exact ih hpre

/-- Under the invariant the Rust slice `text[pos..]` cannot panic. -/
theorem inv_slice {text : List Nat} {pos : Nat} (h : Inv text pos) :
    rust_slice text pos = some (text.drop pos) := by
  obtain ⟨hle, hu⟩ := h
  rw [rust_slice]
  suffices hb : is_char_boundary text pos = true by rw [hb]; simp
  rw [is_char_boundary]
  rcases Nat.eq_zero_or_pos pos with rfl | hpos
  · simp
  rcases Nat.lt_or_ge pos text.length with hlt | hge
  · have hne : text.drop pos ≠ [] := by
      intro hh
      have := List.drop_eq_nil_iff.mp hh
      omega
    obtain ⟨x, xs, hx⟩ := List.exists_cons_of_ne_nil hne
    have hget : text[pos]? = some x := by
      have h0 : (text.drop pos)[0]? = some x := by rw [hx]; simp
      rw [List.getElem?_drop] at h0
      simpa using h0
    have hxc : isCont x = false := by
      rw [hx] at hu
      exact utf8_head_not_cont hu
    simp [Nat.pos_iff_ne_zero.mp hpos, hget, hxc]
  · have hlen : pos = text.length := Nat.le_antisymm hle hge
    have hget : text[pos]? = none := by
      rw [List.getElem?_eq_none_iff]
      omega
    simp [Nat.pos_iff_ne_zero.mp hpos, hget, hlen]

/-! ## Splitting the pattern on `*` respects the character structure -/

theorem splitStar_ne_nil (l : List Nat) : splitStar l ≠ [] := by
  induction l with
  | nil => simp [splitStar]
  | cons b t ih =>
    rw [splitStar]
    by_cases hb : b == 42
    · simp [hb]
    · simp only [hb]
      match h : splitStar t with
      | [] => simp
      | p :: ps => simp

theorem splitStar_append_no42 {a s : List Nat} {p : List Nat}
    {ps : List (List Nat)} (hs : splitStar s = p :: ps)
    (ha : ∀ x ∈ a, x ≠ 42) : splitStar (a ++ s) = (a ++ p) :: ps := by
  induction a with
  | nil => simpa using hs
  | cons b a2 ih =>
    have hb : (b == 42) = false := by
      simp only [beq_eq_false_iff_ne]
      exact ha b (by simp)
    have ih2 := ih (fun x hx => ha x (by simp [hx]))
    rw [List.cons_append, splitStar, hb]
    simp only [Bool.false_eq_true, if_false]
    rw [ih2]
    simp

theorem validChar_mem42 {c : List Nat} (hc : validChar c = true)
    (h42 : 42 ∈ c) : c = [42] := by
  obtain ⟨b, rest, rfl⟩ := List.exists_cons_of_ne_nil (validChar_ne_nil hc)
  have hb : b = 42 := by
    rcases List.mem_cons.mp h42 with h | h
    · exact h.symm
    · exfalso
      have := validChar_tail_cont hc h
      simp [isCont] at this
  subst hb
  have hlen := validChar_leadLen hc
  have h42len : leadLen 42 = 1 := by norm_num [leadLen]
  have : rest.length = 0 := by omega
  rw [List.length_eq_zero.mp this]

/-- Every part produced by splitting a well-formed pattern on `*` is itself
a well-formed byte string. -/
theorem utf8_splitStar {pat : List Nat} (h : Utf8 pat) :
    ∀ q ∈ splitStar pat, Utf8 q := by
  induction h with
  | nil =>
    intro q hq
    simp [splitStar] at hq
    rw [hq]
    exact Utf8.nil
  | cons c s hc hs ih =>
    intro q hq
    by_cases h42 : 42 ∈ c
    · have hcs : c = [42] := validChar_mem42 hc h42
      subst hcs
      rw [List.cons_append, splitStar] at hq
      simp only [beq_self_eq_true, if_true, List.nil_append] at hq
      rcases List.mem_cons.mp hq with h | h
      · rw [h]; exact Utf8.nil
      · exact ih q h
    · obtain ⟨p, ps, hps⟩ : ∃ p ps, splitStar s = p :: ps := by
        match hss : splitStar s with
        | [] => exact absurd hss (splitStar_ne_nil s)
        | p :: ps => exact ⟨p, ps, rfl⟩
      rw [splitStar_append_no42 hps (fun x hx hx42 => h42 (hx42 ▸ hx))] at hq
      rcases List.mem_cons.mp hq with h | h
      · rw [h]
        exact Utf8.cons c p hc (ih p (by rw [hps]; simp))
      · exact ih q (by rw [hps]; simp [h])

/-- The pattern contains a `*` byte exactly when splitting yields at least
two parts (mirrors `parts.len() == 1` in the source). -/
theorem splitStar_two_iff (l : List Nat) :
    2 ≤ (splitStar l).length ↔ 42 ∈ l := by
  induction l with
  | nil => simp [splitStar]
  | cons b t ih =>
    rw [splitStar]
    by_cases hb : b == 42
    · have hb42 : b = 42 := by simpa using hb
      subst hb42
      simp only [beq_self_eq_true, if_true]
      have h1 : 1 ≤ (splitStar t).length :=
        List.length_pos.mpr (splitStar_ne_nil t)
      constructor
      · intro _; simp
      · intro _; simp; omega
    · have hb42 : ¬ b = 42 := by simpa using hb
      simp only [hb]
      have hmem : (42 ∈ b :: t) ↔ (42 ∈ t) := by
        simp [List.mem_cons]
        intro h; exact absurd h.symm hb42
      match hss : splitStar t with
      | [] => exact absurd hss (splitStar_ne_nil t)
      | p :: ps =>
        rw [hss] at ih
        simp only [Bool.false_eq_true, if_false, List.length_cons] at ih ⊢
        rw [hmem]
        exact ih

/-! ## Every Lean string encodes to a well-formed byte string -/

theorem isCont_of {b : Nat} (h1 : 128 ≤ b) (h2 : b < 192) : isCont b = true := by
  simp [isCont]
  omega

theorem not_isCont_of_ge {b : Nat} (h : 192 ≤ b) : isCont b = false := by
  simp [isCont]
  omega

theorem not_isCont_of_lt {b : Nat} (h : b < 128) : isCont b = false := by
  simp [isCont]
  omega

theorem leadLen_two {b : Nat} (h1 : 128 ≤ b) (h2 : b < 224) : leadLen b = 2 := by
  rw [leadLen, if_neg (by omega), if_pos h2]

theorem leadLen_three {b : Nat} (h1 : 224 ≤ b) (h2 : b < 240) :
    leadLen b = 3 := by
  rw [leadLen, if_neg (by omega), if_neg (by omega), if_pos h2]

theorem leadLen_four {b : Nat} (h1 : 240 ≤ b) : leadLen b = 4 := by
  rw [leadLen, if_neg (by omega), if_neg (by omega), if_neg (by omega)]

theorem validChar_utf8Encode (c : Char) : validChar (utf8Encode c) = true := by
  have hval : c.toNat < 1114112 := by
    rcases c.valid with h | ⟨h1, h2⟩
    · exact lt_trans h (by norm_num)
    · exact h2
  rw [utf8Encode]
  by_cases h1 : c.toNat < 128
  · simp only [h1, if_true]
    have e0 : isCont c.toNat = false := not_isCont_of_lt h1
    have e1 : leadLen c.toNat = 1 := by rw [leadLen, if_pos h1]
    simp [validChar, e0, e1]
  · by_cases h2 : c.toNat < 2048
    · simp only [h1, h2, if_true, if_false]
      have e0 : isCont (192 + c.toNat / 64) = false :=
        not_isCont_of_ge (by omega)
      have e1 : leadLen (192 + c.toNat / 64) = 2 :=
        leadLen_two (by omega) (by omega)
      have e2 : isCont (128 + c.toNat % 64) = true :=
        isCont_of (by omega) (by omega)
      simp [validChar, e0, e1, e2]
    · by_cases h3 : c.toNat < 65536
      · simp only [h1, h2, h3, if_true, if_false]
        have e0 : isCont (224 + c.toNat / 4096) = false :=
          not_isCont_of_ge (by omega)
        have e1 : leadLen (224 + c.toNat / 4096) = 3 :=
          leadLen_three (by omega) (by omega)
        have e2 : isCont (128 + c.toNat / 64 % 64) = true :=
          isCont_of (by omega) (by omega)
        have e3 : isCont (128 + c.toNat % 64) = true :=
          isCont_of (by omega) (by omega)
        simp [validChar, e0, e1, e2, e3]
      · simp only [h1, h2, h3, if_false]
        have e0 : isCont (240 + c.toNat / 262144) = false :=
          not_isCont_of_ge (by omega)
        have e1 : leadLen (240 + c.toNat / 262144) = 4 :=
          leadLen_four (by omega)
        have e2 : isCont (128 + c.toNat / 4096 % 64) = true :=
          isCont_of (by omega) (by omega)
        have e3 : isCont (128 + c.toNat / 64 % 64) = true :=
          isCont_of (by omega) (by omega)
        have e4 : isCont (128 + c.toNat % 64) = true :=
          isCont_of (by omega) (by omega)
        simp [validChar, e0, e1, e2, e3, e4]

theorem utf8_strBytes (s : String) : Utf8 (strBytes s) := by
  rw [strBytes]
  induction s.data with
  | nil => exact Utf8.nil
  | cons c cs ih =>
    simp only [List.map_cons, List.flatten_cons]
    exact Utf8.cons _ _ (validChar_utf8Encode c) ih

/-! ## The source loop agrees with the reference matcher -/

/-- On well-formed inputs the source loop never panics and computes
`spec_tail` of the remaining text. -/
theorem glob_loop_eq_spec_tail :
    ∀ (parts : List (List Nat)) (text : List Nat) (pos : Nat),
      Inv text pos → (∀ q ∈ parts, Utf8 q) →
      glob_loop text parts pos = some (spec_tail parts (text.drop pos)) := by
  intro parts
  induction parts with
  | nil => intro text pos _ _; rfl
  | cons m rest ih =>
    intro text pos hinv hq
    cases rest with
    | nil =>
      by_cases hm : m.isEmpty
      · rw [glob_loop, spec_tail]
        simp [hm]
      · have hm2 : m.isEmpty = false := by
          revert hm; cases m.isEmpty <;> simp
        rw [glob_loop, spec_tail, hm2, inv_slice hinv]
        simp
    | cons r rest2 =>
      by_cases hm : m.isEmpty
      · rw [glob_loop, spec_tail]
        simp only [hm, if_true]
        exact ih text pos hinv (fun q hq2 => hq q (by simp [hq2]))
      · have hm2 : m.isEmpty = false := by
          revert hm; cases m.isEmpty <;> simp
        rw [glob_loop, spec_tail, hm2, inv_slice hinv]
        simp only [Bool.false_eq_true, if_false]
        cases hfind : listFind (text.drop pos) m with
        | none => rfl
        | some fp =>
          dsimp only
          obtain ⟨hpre, hfle⟩ := listFind_sound hfind
          have hmne : m ≠ [] := by
            intro hh; rw [hh] at hm; simp at hm
          obtain ⟨mb, mtail, rfl⟩ := List.exists_cons_of_ne_nil hmne
          have hmU : Utf8 (mb :: mtail) := hq _ (by simp)
          have hmb : isCont mb = false := utf8_head_not_cont hmU
          have hU1 : Utf8 ((text.drop pos).drop fp) :=
            utf8_drop_of_match hmb hinv.2 hpre
          have hU2 : Utf8 (((text.drop pos).drop fp).drop
              (mb :: mtail).length) :=
            utf8_drop_prefix hmU hU1 hpre
          have hU3 : Utf8 ((text.drop pos).drop (fp + (mb :: mtail).length)) := by
            rw [← List.drop_drop]
            exact hU2
          have hdd : (text.drop pos).drop (fp + (mb :: mtail).length)
              = text.drop (pos + fp + (mb :: mtail).length) := by
            rw [List.drop_drop, Nat.add_assoc]
          have hlen1 : fp + (mb :: mtail).length ≤ (text.drop pos).length := by
            have h1 := hpre.length_le
            rw [List.length_drop, List.length_drop] at h1
            have h4 := hfle
            rw [List.length_drop] at h4
            rw [List.length_drop]
            omega
          have hinv2 : Inv text (pos + fp + (mb :: mtail).length) := by
            constructor
            · have h2 : (text.drop pos).length = text.length - pos :=
                List.length_drop pos text
              have h3 := hinv.1
              omega
            · rw [← hdd]
              exact hU3
          rw [ih text (pos + fp + (mb :: mtail).length) hinv2
            (fun q hq2 => hq q (by simp [hq2])), hdd]

/-- Equation lemma for `spec_tail` at a cons whose tail is nonempty. -/
theorem spec_tail_cons {m : List Nat} {rest : List (List Nat)}
    (h : rest ≠ []) (rem : List Nat) :
    spec_tail (m :: rest) rem =
      (if m.isEmpty then spec_tail rest rem
       else
         match listFind rem m with
         | some p => spec_tail rest (rem.drop (p + m.length))
         | none => false) := by
  cases rest with
  | nil => exact absurd rfl h
  | cons r rest2 => rw [spec_tail]

/-- `spec_tail` over `mids ++ [last]` is the interior scan of `mids`
followed by the suffix check of `last`: the two shapes of the reference
definition agree. -/
theorem spec_tail_eq_scan :
    ∀ (mids : List (List Nat)) (rem lst : List Nat),
      spec_tail (mids ++ [lst]) rem =
        (match seg_scan mids rem with
         | none => false
         | some rem2 => lst.isEmpty || lst.isSuffixOf rem2) := by
  intro mids
  induction mids with
  | nil =>
    intro rem lst
    rw [List.nil_append, spec_tail, seg_scan]
  | cons m ms ih =>
    intro rem lst
    rw [List.cons_append,
      spec_tail_cons (by simp : ms ++ [lst] ≠ []) rem, seg_scan]
    by_cases hm : m.isEmpty
    · simp only [hm, if_true]
      exact ih rem lst
    · simp only [hm, Bool.false_eq_true, if_false]
      cases hfind : listFind rem m with
      | none => rfl
      | some p => exact ih (rem.drop (p + m.length)) lst

/-- Master lemma: on well-formed byte strings the embedded `glob_match`
never panics and returns exactly what the reference definition says. -/
theorem glob_match_eq_spec {text pattern : List Nat}
    (ht : Utf8 text) (hp : Utf8 pattern) :
    glob_match text pattern = some (spec_glob text pattern) := by
  match hsplit : splitStar pattern with
  | [] => exact absurd hsplit (splitStar_ne_nil pattern)
  | [p] =>
    have hno42 : ¬ (42 ∈ pattern) := by
      intro hmem
      have := (splitStar_two_iff pattern).mpr hmem
      rw [hsplit] at this
      simp at this
    have hcont : pattern.contains 42 = false := by simpa using hno42
    rw [glob_match, spec_glob, hsplit, hcont]
    simp
  | first :: r :: rest =>
    have hmem : 42 ∈ pattern := by
      apply (splitStar_two_iff pattern).mp
      rw [hsplit]
      simp
    have hcont : pattern.contains 42 = true := by simpa using hmem
    have hqs : ∀ q ∈ (r :: rest), Utf8 q := by
      intro q hq2
      exact utf8_splitStar hp q (by rw [hsplit]; simp [hq2])
    have hfirstU : Utf8 first := utf8_splitStar hp first (by rw [hsplit]; simp)
    have hlen : ((first :: r :: rest).length == 1) = false := by simp
    have hLne : (r :: rest) ≠ [] := by simp
    have hdec : (r :: rest).dropLast ++ [(r :: rest).getLastD []]
        = (r :: rest) := by
      rw [List.getLastD_eq_getLast?, List.getLast?_eq_getLast _ hLne]
      exact List.dropLast_append_getLast hLne
    have hst : ∀ rem, spec_tail (r :: rest) rem =
        (match seg_scan (r :: rest).dropLast rem with
         | none => false
         | some rem2 =>
             ((r :: rest).getLastD []).isEmpty
               || ((r :: rest).getLastD []).isSuffixOf rem2) := by
      intro rem
      conv_lhs => rw [← hdec]
      rw [spec_tail_eq_scan]
    rw [glob_match, spec_glob, hsplit, hcont]
    simp only [hlen, Bool.false_eq_true, if_false, Bool.not_true]
    by_cases hfe : first.isEmpty
    · simp only [hfe, if_true]
      rw [glob_loop_eq_spec_tail (r :: rest) text 0
        ⟨Nat.zero_le _, by simpa using ht⟩ hqs]
      rw [List.drop_zero, hst text]
    · simp only [hfe, Bool.false_eq_true, if_false]
      by_cases hpref : first.isPrefixOf text
      · simp only [hpref, if_true]
        have hprefP : first <+: text := List.isPrefixOf_iff_prefix.mp hpref
        have hinv : Inv text first.length :=
          ⟨hprefP.length_le, utf8_drop_prefix hfirstU ht hprefP⟩
        rw [glob_loop_eq_spec_tail (r :: rest) text first.length hinv hqs]
        rw [hst (text.drop first.length)]
      · simp only [hpref, Bool.false_eq_true, if_false]

/-- C5: for every text and pattern (arbitrary strings, hence arbitrary
UTF-8 byte sequences), the source matcher `glob_match` returns exactly the
value of the reference definition `spec_glob` from the spec's words: no
`*` means exact equality; otherwise the first non-empty segment is a
prefix constraint, interior non-empty segments are found in order by a
leftmost non-backtracking scan, the last non-empty segment is a suffix
constraint on the remainder, empty segments impose no constraint, and a
pattern of only `*` matches everything. -/
theorem claim_C5_glob_match_refines_spec (text pattern : String) :
    glob_match (strBytes text) (strBytes pattern)
      = some (spec_glob (strBytes text) (strBytes pattern)) :=
  glob_match_eq_spec (utf8_strBytes text) (utf8_strBytes pattern)

/-! ## Resolver provenance and fallback -/

/-- C3: resolutions that bypass the cache (an explicit URL, or the
installed-state fallback) are tagged `DirectRepo`; a resolution served
from a cache match returns exactly the cached entries, so whenever every
cache entry carries a `Bucket` source (the spec's description of the
cache), every such result is tagged `Bucket` with its bucket name. -/
theorem claim_C3_source_provenance (env : ResolverEnv) :
    (∀ url rs, resolve env (.DirectUrl url) = .ok rs →
        ∀ r ∈ rs, r.source = .DirectRepo url)
    ∧ (∀ name cache, env.cache = .ok cache →
        ∀ rs, resolve env (.CacheName name) = .ok rs →
          (cache_matches cache name ≠ [] →
            rs = (cache_matches cache name).map
              (fun cached => ⟨cached.package, cached.source⟩)
            ∧ ((∀ e ∈ cache.packages, ∃ bn, e.2.source = .Bucket bn) →
                ∀ r ∈ rs, ∃ bn, r.source = .Bucket bn))
          ∧ (cache_matches cache name = [] →
              ∃ url, ∀ r ∈ rs, r.source = .DirectRepo url)) := by
  constructor
  · intro url rs hok
    rw [resolve] at hok
    cases hf : env.fetchPackage url with
    | error e =>
      rw [resolve_from_url, hf] at hok
      simp [Except.map] at hok
    | ok pkg =>
      rw [resolve_from_url, hf] at hok
      simp [Except.map] at hok
      intro r hr
      rw [← hok] at hr
      simp at hr
      rw [hr]
  · intro name cache hc rs hok
    rw [resolve, resolve_from_cache, hc] at hok
    constructor
    · intro hne
      have hne2 : (cache_matches cache name).isEmpty = false :=
        List.isEmpty_eq_false.mpr hne
      simp only [hne2, Bool.not_false, if_true, Except.ok.injEq] at hok
      constructor
      · exact hok.symm
      · intro hall r hr
        rw [← hok] at hr
        simp only [List.mem_map] at hr
        obtain ⟨cached, hcached, rfl⟩ := hr
        have hmem : cached ∈ cache.packages.map Prod.snd := by
          by_cases hstar : strContainsStar name
          · rw [cache_matches, if_pos hstar] at hcached
            exact List.mem_of_mem_filter hcached
          · rw [cache_matches, if_neg hstar] at hcached
            exact List.mem_of_mem_filter hcached
        obtain ⟨e, he, rfl⟩ := List.mem_map.mp hmem
        exact hall e he
    · intro hempty
      simp only [hempty, List.isEmpty_nil, Bool.not_true, Bool.false_eq_true,
        if_false] at hok
      by_cases hstar : strContainsStar name
      · rw [if_neg (by simp [hstar])] at hok
        exact absurd hok (by simp)
      · rw [if_pos (by simp [hstar])] at hok
        cases hI : env.installed with
        | error e =>
          rw [hI] at hok
          exact absurd hok (by simp)
        | ok installed =>
          rw [hI] at hok
          dsimp only at hok
          cases hget : installed.get_package name with
          | none =>
            rw [hget] at hok
            exact absurd hok (by simp)
          | some inst_pkg =>
            rw [hget] at hok
            dsimp only at hok
            cases hsrc : inst_pkg.source with
            | Bucket bn =>
              rw [hsrc] at hok
              exact absurd hok (by simp)
            | DirectRepo url =>
              rw [hsrc] at hok
              dsimp only at hok
              refine ⟨url, ?_⟩
              cases hf : env.fetchPackage url with
              | error e =>
                rw [resolve_from_url, hf] at hok
                simp [Except.map] at hok
              | ok pkg =>
                rw [resolve_from_url, hf] at hok
                simp [Except.map] at hok
                intro r hr
                rw [← hok] at hr
                simp at hr
                rw [hr]

/-- Witness for C3 at a concrete environment: a one-entry Bucket cache
serves exactly the Bucket-tagged entry. -/
theorem claim_C3_source_provenance_witness :
    ∀ r ∈ [ResolvedPackage.mk pkgFoo (.Bucket "main")], ∃ bn,
      r.source = .Bucket bn := by
  have h := (claim_C3_source_provenance envBucket).2 "foo" cacheFoo rfl
    [ResolvedPackage.mk pkgFoo (.Bucket "main")] (by rfl)
  refine (h.1 (by decide)).2 ?_
  intro e he
  refine ⟨"main", ?_⟩
  simp [cacheFoo] at he
  rw [he]

/-- C4: with no cache match, a `*`-free name falls back to the installed
store: a `DirectRepo{url}` installed entry is re-resolved by fetching
`url`; a missing entry or a `Bucket` entry fails `notFound`; and a name
containing `*` fails `notFound` without the installed store being
consulted (the outcome is the same for every installed-store state,
including a failing one). -/
theorem claim_C4_installed_fallback (env : ResolverEnv) (name : String)
    (cache : Cache) (hc : env.cache = .ok cache)
    (hempty : cache_matches cache name = []) :
    ((strContainsStar name = false →
       ∀ installed, env.installed = .ok installed →
         ((∀ inst_pkg url, installed.get_package name = some inst_pkg →
            inst_pkg.source = .DirectRepo url →
              resolve env (.CacheName name)
                = (resolve_from_url env url).map (fun p => [p]))
          ∧ (installed.get_package name = none →
              resolve env (.CacheName name) = .error (.notFound name))
          ∧ (∀ inst_pkg bn, installed.get_package name = some inst_pkg →
              inst_pkg.source = .Bucket bn →
              resolve env (.CacheName name) = .error (.notFound name))))
     ∧ (strContainsStar name = true →
         ∀ I, resolve { env with installed := I } (.CacheName name)
            = .error (.notFound name))) := by
  constructor
  · intro hnostar installed hI
    refine ⟨?_, ?_, ?_⟩
    · intro inst_pkg url hget hsrc
      rw [resolve, resolve_from_cache, hc]
      simp only [hempty, List.isEmpty_nil, Bool.not_true, Bool.false_eq_true,
        if_false, hnostar, Bool.not_false, if_true, hI, hget, hsrc]
    · intro hget
      rw [resolve, resolve_from_cache, hc]
      simp only [hempty, List.isEmpty_nil, Bool.not_true, Bool.false_eq_true,
        if_false, hnostar, Bool.not_false, if_true, hI, hget]
    · intro inst_pkg bn hget hsrc
      rw [resolve, resolve_from_cache, hc]
      simp only [hempty, List.isEmpty_nil, Bool.not_true, Bool.false_eq_true,
        if_false, hnostar, Bool.not_false, if_true, hI, hget, hsrc]
  · intro hstar I
    rw [resolve, resolve_from_cache]
    have hc2 : ({ env with installed := I } : ResolverEnv).cache = .ok cache := hc
    rw [hc2]
    simp only [hempty, List.isEmpty_nil, Bool.not_true, Bool.false_eq_true,
      if_false, hstar]

/-- Witness for C4 at a concrete environment: a name absent from the
cache whose installed entry has `DirectRepo` provenance re-resolves from
the stored URL, and a glob name absent from the cache fails `notFound`
even when the installed store itself fails. -/
theorem claim_C4_installed_fallback_witness :
    resolve envFallback (.CacheName "foo")
        = .ok [⟨pkgFoo, .DirectRepo "https://github.com/u/foo"⟩]
      ∧ resolve { envFallback with installed := .error "io" }
          (.CacheName "fo*") = .error (.notFound "fo*") := by
  constructor
  · have h := ((claim_C4_installed_fallback envFallback "foo" ⟨[]⟩ rfl
      (by decide)).1 (by decide) ⟨[("foo", instFooDirect)]⟩ rfl).1
      instFooDirect "https://github.com/u/foo" (by rfl) (by rfl)
    rw [h]
    rfl
  · exact (claim_C4_installed_fallback envFallback "fo*" ⟨[]⟩ rfl
      (by decide)).2 (by decide) (.error "io")

/-! ## Installer pipeline claims -/

theorem splitSlash_ne_nil (l : List Char) : splitSlash l ≠ [] := by
  induction l with
  | nil => simp [splitSlash]
  | cons c t ih =>
    rw [splitSlash]
    by_cases hc : c == '/'
    · simp [hc]
    · simp only [hc]
      match h : splitSlash t with
      | [] => simp
      | p :: ps => simp

/-- C7: platform selection scans the host identifiers most-specific-first
and returns the first one that is a key of the package's platform map,
paired with that key's asset; when no host identifier is a key,
`install_package` fails with `No binary found for current platform` (the
`UnsupportedPlatform` failure). -/
theorem claim_C7_platform_selection :
    (∀ (platform_ids : List String) (platforms : List (String × BinaryAsset))
       (i : Nat) (hi : i < platform_ids.length) (b : BinaryAsset),
       (∀ pid ∈ platform_ids.take i, platforms.lookup pid = none) →
       platforms.lookup (platform_ids.get ⟨i, hi⟩) = some b →
       selectPlatform platform_ids platforms
         = some (platform_ids.get ⟨i, hi⟩, b))
    ∧ (∀ (env : InstallEnv) (pkg : Package) (platform_ids : List String)
         (version : String) (source : PackageSource),
         (∀ pid ∈ platform_ids, pkg.platforms.lookup pid = none) →
         install_package env pkg platform_ids version source
           = .error "No binary found for current platform") := by
  constructor
  · intro pids platforms
    induction pids with
    | nil =>
      intro i hi
      exact absurd hi (by simp)
    | cons a t ih =>
      intro i hi b hnone hsome
      cases i with
      | zero =>
        rw [selectPlatform, List.findSome?_cons]
        have ha : platforms.lookup a = some b := hsome
        simp [ha]
      | succ j =>
        have ha : platforms.lookup a = none := by
          apply hnone
          simp [List.take_succ_cons]
        have ih2 := ih j (Nat.lt_of_succ_lt_succ hi) b
          (fun pid hpid => hnone pid
            (by rw [List.take_succ_cons]; exact List.mem_cons_of_mem a hpid))
          hsome
        rw [selectPlatform, List.findSome?_cons]
        simp only [ha, Option.map_none]
        exact ih2
  · intro env pkg pids version source hnone
    have hsel : selectPlatform pids pkg.platforms = none := by
      rw [selectPlatform, List.findSome?_eq_none_iff]
      intro pid hpid
      rw [hnone pid hpid]
      rfl
    rw [install_package, hsel]

/-- Witness for C7: `linux-x64` is picked over `linux` because it comes
first in priority order, and an empty map fails. -/
theorem claim_C7_platform_selection_witness :
    selectPlatform ["linux-x64", "linux"]
        [("linux", ⟨"u1", 1⟩), ("linux-x64", ⟨"u2", 2⟩)]
      = some ("linux-x64", ⟨"u2", 2⟩)
    ∧ install_package cleanupFailEnv pkgFoo ["windows-x64"] "1.0"
        (.Bucket "main") = .error "No binary found for current platform" := by
  constructor
  · exact claim_C7_platform_selection.1 ["linux-x64", "linux"]
      [("linux", ⟨"u1", 1⟩), ("linux-x64", ⟨"u2", 2⟩)] 0 (by decide)
      ⟨"u2", 2⟩ (by intro pid hpid; simp at hpid) (by decide)
  · exact claim_C7_platform_selection.2 cleanupFailEnv pkgFoo ["windows-x64"]
      "1.0" (.Bucket "main") (by intro pid hpid; simp at hpid; rw [hpid]; rfl)

/-- C9: the destination filename handed to the downloader is the final
path segment of the asset URL, `url.split('/').next_back()`; the
`Invalid download URL` failure (the `InvalidUrl` of the claim) is raised
by `install_package` exactly when that segment is absent, and the first
conjunct shows absence is impossible: like Rust's `split`, the embedded
split always yields at least one (possibly empty) segment, so the
conditional failure holds vacuously. -/
theorem claim_C9_download_filename :
    (∀ url : String, (lastSegment url).isSome = true)
    ∧ (∀ (env : InstallEnv) (pkg : Package) (platform_ids : List String)
         (version : String) (source : PackageSource) (pid : String)
         (b : BinaryAsset) (fn : String),
         selectPlatform platform_ids pkg.platforms = some (pid, b) →
         env.createDirAll = .ok () →
         lastSegment b.url = some fn →
         (∀ u f, env.download u f = .error ("download destination: " ++ f)) →
         install_package env pkg platform_ids version source
           = .error ("download destination: " ++ fn)) := by
  constructor
  · intro url
    rw [lastSegment, List.getLast?_isSome]
    simp [splitSlash_ne_nil]
  · intro env pkg pids version source pid b fn hsel hdir hseg hdl
    rw [install_package, hsel]
    dsimp only
    rw [hdir]
    dsimp only
    rw [hseg]
    dsimp only
    rw [hdl b.url fn]

/-- Witness for C9 at a concrete package: the filename is `foo.tar.gz`,
the last segment of the asset URL. -/
theorem claim_C9_download_filename_witness :
    install_package
        { cleanupFailEnv with
            download := fun _ f => .error ("download destination: " ++ f) }
        pkgFooLinux ["linux-x64"] "1.0" (.Bucket "main")
      = .error "download destination: foo.tar.gz" := by
  have h := claim_C9_download_filename.2
    { cleanupFailEnv with
        download := fun _ f => .error ("download destination: " ++ f) }
    pkgFooLinux ["linux-x64"] "1.0" (.Bucket "main") "linux-x64"
    ⟨"https://github.com/u/foo/releases/v1/foo.tar.gz", 10⟩ "foo.tar.gz"
    (by rfl) (by rfl) (by rfl) (fun u f => rfl)
  exact h

/-- C1 (counterexample): with every stage up to and including launcher
creation succeeding and only the deletion of the staged archive failing,
`install_package` returns the deletion error instead of producing an
`InstalledPackage`: the cleanup failure is fatal in the code, refuting
the claim that the install still succeeds. -/
theorem claim_C1_counterexample :
    cleanupFailEnv.download "https://github.com/u/foo/releases/v1/foo.tar.gz"
        "foo.tar.gz" = .ok ()
    ∧ cleanupFailEnv.extract "foo.tar.gz" = .ok ["foo"]
    ∧ cleanupFailEnv.findExecutable ["foo"] "foo" = some "foo"
    ∧ cleanupFailEnv.exeExists "foo" = true
    ∧ cleanupFailEnv.createLauncher "foo" = .ok ()
    ∧ install_package cleanupFailEnv pkgFooLinux ["linux-x64"] "1.0.0"
        (.Bucket "main") = .error "Permission denied (os error 13)" := by
  refine ⟨rfl, rfl, rfl, rfl, rfl, rfl⟩

/-- C1 (amended): after the launcher has been created, a failure to
delete the staged downloaded archive is fatal: `install_package`
propagates the deletion error (`fs::remove_file(&download_path)?`,
add.rs line 282) and no `InstalledPackage` record is produced, even
though download, extraction, executable location and launcher creation
all succeeded. -/
theorem claim_C1_cleanup_failure_fatal
    (env : InstallEnv) (pkg : Package) (platform_ids : List String)
    (version : String) (source : PackageSource)
    (pid : String) (b : BinaryAsset) (fn : String) (files : List String)
    (exe : String) (e : String)
    (hsel : selectPlatform platform_ids pkg.platforms = some (pid, b))
    (hdir : env.createDirAll = .ok ())
    (hseg : lastSegment b.url = some fn)
    (hdl : env.download b.url fn = .ok ())
    (hrm : (if env.appDirExists then env.removeDirAll else .ok ()) = .ok ())
    (hex : env.extract fn = .ok files)
    (hfind : env.findExecutable files pkg.name = some exe)
    (hexists : env.exeExists exe = true)
    (hlaunch : env.createLauncher exe = .ok ())
    (hclean : env.removeDownload fn = .error e) :
    install_package env pkg platform_ids version source = .error e := by
  simp [install_package, hsel, hdir, hseg, hdl, hrm, hex, hfind, hexists,
    hlaunch, hclean]

/-- Witness for C1's amended theorem at the concrete failing
environment. -/
theorem claim_C1_cleanup_failure_fatal_witness :
    install_package cleanupFailEnv pkgFooLinux ["linux-x64"] "1.0.0"
        (.Bucket "main") = .error "Permission denied (os error 13)" :=
  claim_C1_cleanup_failure_fatal cleanupFailEnv pkgFooLinux ["linux-x64"]
    "1.0.0" (.Bucket "main") "linux-x64"
    ⟨"https://github.com/u/foo/releases/v1/foo.tar.gz", 10⟩ "foo.tar.gz"
    ["foo"] "foo" "Permission denied (os error 13)"
    (by rfl) (by rfl) (by rfl) (by rfl) (by rfl) (by rfl) (by rfl) (by rfl)
    (by rfl) (by rfl)

/-! ## Batch loop claims -/

/-- C2: pipeline failures are isolated per package.  When the in-loop
version fetch succeeds and `install_package` fails, the loop leaves the
in-memory manifest and the list of persisted manifests untouched (no
partial commit for the failed package), increments exactly the failure
counter, and continues with the remaining packages.  When
`install_package` succeeds, its record is upserted into the manifest and
the manifest is persisted immediately, before any later package runs. -/
theorem claim_C2_batch_isolation (env : RunEnv) (platform_ids : List String)
    (resolved : ResolvedPackage) (rest : List ResolvedPackage)
    (st : RunState) (version : String)
    (hv : env.fetchVersion resolved.package.repo = .ok version) :
    ((∀ e, install_package (env.instEnv resolved) resolved.package
          platform_ids version resolved.source = .error e →
        installLoop env platform_ids (resolved :: rest) st
          = installLoop env platform_ids rest
              { st with failCount := st.failCount + 1 })
     ∧ (∀ inst_pkg,
          install_package (env.instEnv resolved) resolved.package
              platform_ids version resolved.source = .ok inst_pkg →
          env.saveResult (st.installed.upsert_package
              resolved.package.name inst_pkg) = .ok () →
          installLoop env platform_ids (resolved :: rest) st
            = installLoop env platform_ids rest
                { installed := st.installed.upsert_package
                    resolved.package.name inst_pkg,
                  saves := st.saves ++ [st.installed.upsert_package
                    resolved.package.name inst_pkg],
                  successCount := st.successCount + 1,
                  failCount := st.failCount })) := by
  constructor
  · intro e hfail
    simp only [installLoop, hv, hfail]
  · intro inst_pkg hinst hsave
    simp only [installLoop, hv, hinst, hsave]

/-- Witness for C2: a package whose download fails leaves the state
untouched apart from the failure counter and the loop proceeds. -/
theorem claim_C2_batch_isolation_witness :
    installLoop runEnvFix ["linux-x64"] [⟨pkgBadLinux, .Bucket "main"⟩]
        { installed := ⟨[]⟩, saves := [], successCount := 0, failCount := 0 }
      = .ok { installed := ⟨[]⟩, saves := [], successCount := 0,
              failCount := 1 } := by
  have h := (claim_C2_batch_isolation runEnvFix ["linux-x64"]
    ⟨pkgBadLinux, .Bucket "main"⟩ []
    { installed := ⟨[]⟩, saves := [], successCount := 0, failCount := 0 }
    "1.0.0" (by rfl)).1 "network" (by rfl)
  rw [h]
  rfl

/-- C8: a package already installed at the latest fetched version is
reported `already installed, same version` and is placed in neither the
new-install list nor the upgrade list; consequently the batch run is the
same as if the package were absent, so no download is performed for
it. -/
theorem claim_C8_same_version_skipped (env : RunEnv)
    (installed : InstalledManifest) (resolved : ResolvedPackage)
    (rest : List ResolvedPackage) (inst_pkg : InstalledPackage) (v : String)
    (hget : installed.get_package resolved.package.name = some inst_pkg)
    (hv : env.fetchVersion resolved.package.repo = .ok v)
    (hsame : inst_pkg.version = v) :
    (classifyPackages env installed (resolved :: rest)
       = ((classifyPackages env installed rest).1,
          (classifyPackages env installed rest).2.1,
          (resolved.package.name, Report.sameVersion v)
            :: (classifyPackages env installed rest).2.2))
    ∧ (∀ platform_ids, runBatch env platform_ids installed (resolved :: rest)
         = runBatch env platform_ids installed rest) := by
  subst hsame
  have h1 : classifyPackages env installed (resolved :: rest)
      = ((classifyPackages env installed rest).1,
         (classifyPackages env installed rest).2.1,
         (resolved.package.name, Report.sameVersion inst_pkg.version)
           :: (classifyPackages env installed rest).2.2) := by
    simp only [classifyPackages, hv, hget, beq_self_eq_true, if_true]
  refine ⟨h1, ?_⟩
  intro platform_ids
  rw [runBatch, runBatch, h1]

/-- Witness for C8: re-running install on `foo` already at `1.0.0` is
reported same-version, not listed, and the batch equals the empty
batch. -/
theorem claim_C8_same_version_skipped_witness :
    (classifyPackages runEnvFix
        ⟨[("foo", { instFooDirect with version := "1.0.0" })]⟩
        [⟨pkgFooLinux, .Bucket "main"⟩]
      = ([], [], [("foo", Report.sameVersion "1.0.0")]))
    ∧ runBatch runEnvFix ["linux-x64"]
        ⟨[("foo", { instFooDirect with version := "1.0.0" })]⟩
        [⟨pkgFooLinux, .Bucket "main"⟩]
      = runBatch runEnvFix ["linux-x64"]
        ⟨[("foo", { instFooDirect with version := "1.0.0" })]⟩ [] := by
  have h := claim_C8_same_version_skipped runEnvFix
    ⟨[("foo", { instFooDirect with version := "1.0.0" })]⟩
    ⟨pkgFooLinux, .Bucket "main"⟩ []
    { instFooDirect with version := "1.0.0" } "1.0.0"
    (by rfl) (by rfl) (by rfl)
  exact ⟨h.1, h.2 ["linux-x64"]⟩

/-! ## The input classifier: trimming and prefixes -/

theorem dropWhile_append_keep {α : Type} {p : α → Bool} {b : List α}
    (hb : b ≠ []) (hhead : p (b.head hb) = false) :
    ∀ a : List α, (a ++ b).dropWhile p = a.dropWhile p ++ b := by
  intro a
  induction a with
  | nil =>
    obtain ⟨c, t, rfl⟩ := List.exists_cons_of_ne_nil hb
    simp only [List.nil_append, List.dropWhile_nil]
    rw [List.dropWhile_cons]
    simp only [List.head_cons] at hhead
    rw [hhead]
    simp
  | cons x a2 ih =>
    rw [List.cons_append, List.dropWhile_cons, List.dropWhile_cons]
    by_cases hx : p x
    · simp only [hx, if_true]
      exact ih
    · have hx2 : p x = false := by revert hx; cases p x <;> simp
      simp only [hx2]
      simp

/-- Trimming a string that starts with a fully non-whitespace, nonempty
prefix keeps that prefix in place. -/
theorem rustTrim_keeps_prefix (pre : List Char) {raw : String}
    (hne : pre ≠ []) (hnws : ∀ c ∈ pre, rustIsWhitespace c = false)
    (h : pre.isPrefixOf raw.data = true) :
    ∃ t : List Char, (rustTrim raw).data = pre ++ t := by
  obtain ⟨rest, hrest⟩ := List.isPrefixOf_iff_prefix.mp h
  have hpre_ne : pre.reverse ≠ [] := by simpa using hne
  have hhead1 : rustIsWhitespace (pre.head hne) = false :=
    hnws _ (List.head_mem hne)
  have hhead2 : rustIsWhitespace (pre.reverse.head hpre_ne) = false := by
    apply hnws
    have hm := List.head_mem hpre_ne
    simp only [List.mem_reverse] at hm
    exact hm
  refine ⟨((rest.reverse.dropWhile rustIsWhitespace)).reverse, ?_⟩
  show trimChars raw.data = _
  rw [trimChars, ← hrest]
  have step1 : (pre ++ rest).dropWhile rustIsWhitespace = pre ++ rest := by
    obtain ⟨c, t, rfl⟩ := List.exists_cons_of_ne_nil hne
    rw [List.cons_append, List.dropWhile_cons]
    simp only [List.head_cons] at hhead1
    rw [hhead1]
    simp
  rw [step1, List.reverse_append,
    dropWhile_append_keep hpre_ne hhead2 rest.reverse]
  rw [List.reverse_append, List.reverse_reverse]

theorem rustStartsWith_head {s pre : String} (h : rustStartsWith s pre = true)
    {c : Char} {t : List Char} (hpre : pre.data = c :: t) :
    s.data.head? = some c := by
  rw [rustStartsWith, hpre] at h
  obtain ⟨rest, hrest⟩ := List.isPrefixOf_iff_prefix.mp h
  rw [← hrest]
  rfl

/-- C6 (counterexample): an input that starts with `https://` but carries
trailing whitespace is classified as a URL yet does not pass through
unchanged - `normalize_github_url` trims it first, so the claim's
"any other URL passes through unchanged" fails at `"https://a "`. -/
theorem claim_C6_counterexample :
    PackageInput.parse "https://a " = .DirectUrl "https://a"
      ∧ rustStartsWith "https://a " "https://" = true
      ∧ rustStartsWith "https://a " "github.com/" = false
      ∧ PackageInput.DirectUrl "https://a" ≠ .DirectUrl "https://a " := by
  refine ⟨by decide, by decide, by decide, by decide⟩

/-- C6 (amended): `parse(raw)` produces `DirectUrl` exactly when `raw`
starts with `http://`, `https://` or `github.com/`; the URL is first
trimmed of surrounding whitespace, a bare `github.com/...` form is then
normalized by prepending `https://`, any other URL passes through with
only that trim applied, and every other string becomes `CacheName`
carrying the string unchanged. -/
theorem claim_C6_parse_amended (raw : String) :
    ((∃ u, PackageInput.parse raw = .DirectUrl u) ↔
      (rustStartsWith raw "http://" = true ∨ rustStartsWith raw "https://" = true
        ∨ rustStartsWith raw "github.com/" = true))
    ∧ (rustStartsWith raw "github.com/" = true →
        PackageInput.parse raw = .DirectUrl ("https://" ++ rustTrim raw))
    ∧ ((rustStartsWith raw "http://" = true ∨ rustStartsWith raw "https://" = true) →
        PackageInput.parse raw = .DirectUrl (rustTrim raw))
    ∧ (rustStartsWith raw "http://" = false →
        rustStartsWith raw "https://" = false →
        rustStartsWith raw "github.com/" = false →
        PackageInput.parse raw = .CacheName raw) := by
  refine ⟨?_, ?_, ?_, ?_⟩
  · constructor
    · intro ⟨u, hu⟩
      by_contra hnone
      push_neg at hnone
      obtain ⟨h1, h2, h3⟩ := hnone
      have h1f : rustStartsWith raw "http://" = false := by
        revert h1; cases rustStartsWith raw "http://" <;> simp
      have h2f : rustStartsWith raw "https://" = false := by
        revert h2; cases rustStartsWith raw "https://" <;> simp
      have h3f : rustStartsWith raw "github.com/" = false := by
        revert h3; cases rustStartsWith raw "github.com/" <;> simp
      rw [PackageInput.parse, h1f, h2f, h3f] at hu
      simp at hu
    · intro h
      refine ⟨normalize_github_url raw, ?_⟩
      rw [PackageInput.parse]
      rcases h with h | h | h <;> rw [h] <;> simp
  · intro h
    have hnws : ∀ c ∈ ("github.com/" : String).data,
        rustIsWhitespace c = false := by decide
    obtain ⟨t, ht⟩ := rustTrim_keeps_prefix ("github.com/" : String).data
      (by decide) hnws h
    have htrim : rustStartsWith (rustTrim raw) "github.com/" = true := by
      rw [rustStartsWith, ht]
      exact List.isPrefixOf_iff_prefix.mpr ⟨t, rfl⟩
    rw [PackageInput.parse, h]
    simp only [Bool.or_true, if_true]
    rw [normalize_github_url, htrim]
    simp
  · intro h
    have hgit : rustStartsWith (rustTrim raw) "github.com/" = false := by
      by_contra hg
      have hg2 : rustStartsWith (rustTrim raw) "github.com/" = true := by
        revert hg; cases rustStartsWith (rustTrim raw) "github.com/" <;> simp
      have hpredata : ("github.com/" : String).data
          = 'g' :: ("ithub.com/" : String).data := by decide
      have hheadg := rustStartsWith_head hg2 hpredata
      rcases h with h | h
      · have hnws : ∀ c ∈ ("http://" : String).data,
            rustIsWhitespace c = false := by decide
        obtain ⟨t, ht⟩ := rustTrim_keeps_prefix
          ("http://" : String).data (by decide) hnws h
        rw [ht] at hheadg
        simp at hheadg
      · have hnws : ∀ c ∈ ("https://" : String).data,
            rustIsWhitespace c = false := by decide
        obtain ⟨t, ht⟩ := rustTrim_keeps_prefix
          ("https://" : String).data (by decide) hnws h
        rw [ht] at hheadg
        simp at hheadg
    rw [PackageInput.parse]
    rcases h with h | h <;> rw [h] <;> simp <;>
      rw [normalize_github_url, hgit] <;> simp
  · intro h1 h2 h3
    rw [PackageInput.parse, h1, h2, h3]
    simp

/-- Witness for C6's amended theorem at concrete inputs. -/
theorem claim_C6_parse_amended_witness :
    PackageInput.parse "github.com/u/r" = .DirectUrl "https://github.com/u/r"
      ∧ PackageInput.parse "ripgrep" = .CacheName "ripgrep" := by
  constructor
  · have h := (claim_C6_parse_amended "github.com/u/r").2.1 (by decide)
    rw [h]
    decide
  · exact (claim_C6_parse_amended "ripgrep").2.2.2
      (by decide) (by decide) (by decide)

/-- C10: `glob_match` is total and panic-free on every pair of strings,
multi-byte UTF-8 included: the byte cursor only ever slices `text` at a
character boundary, so the embedded function (in which `none` models a
Rust panic of `text[pos..]`) always returns `some` boolean. -/
theorem claim_C10_glob_match_total (text pattern : String) :
    (glob_match (strBytes text) (strBytes pattern)).isSome = true := by
  rw [glob_match_eq_spec (utf8_strBytes text) (utf8_strBytes pattern)]
  rfl

end Wen

/-! Sanity checks: the embedded matcher on the spec's own test vectors. -/
section SanityChecks
open Wen
example : glob_match (strBytes "ripgrep") (strBytes "ripgrep") = some true := by decide
example : glob_match (strBytes "ripgrep") (strBytes "rip*") = some true := by decide
example : glob_match (strBytes "ripgrep") (strBytes "*grep") = some true := by decide
example : glob_match (strBytes "ripgrep") (strBytes "r*p*p") = some true := by decide
example : glob_match (strBytes "ripgrep") (strBytes "*") = some true := by decide
example : glob_match (strBytes "ripgrep") (strBytes "rip") = some false := by decide
example : glob_match (strBytes "ripgrep") (strBytes "bat*") = some false := by decide
example : glob_match (strBytes "héllo") (strBytes "h*o") = some true := by decide
example : spec_glob (strBytes "ripgrep") (strBytes "r*p*p") = true := by decide
example : spec_glob (strBytes "xab") (strBytes "*ab") = true := by decide
example : glob_match (strBytes "xab") (strBytes "*ab") = some true := by decide
end SanityChecks
